import Mathlib

/-!
Verification of the wordle-solver scoring and entropy-ranking engine.

The development shallowly embeds `src/main.rs`:

* words (`[char; 5]`) become `List Char` (length 5 by precondition);
* the mutable loops of `score_guess`, `to_ternary`, `from_ternary` and the
  fold-style accumulations become structural recursions / `List.foldl`;
* `u16` / `usize` arithmetic becomes `ℕ` (every value reached in the claims
  stays far below `2^16`, so wrap-around never occurs);
* `HashMap<&[char;5], f64>` becomes an association list `List (List Char × α)`
  (iteration order of the hash map is abstracted as the list order; none of
  the verified properties depends on that order);
* `f64` is modelled twice, matching the two kinds of claims:
  - `F64`: exact rationals extended with the IEEE-754 special values `±∞` and
    `NaN`, with the IEEE propagation/comparison rules for the operations the
    source uses.  Finite arithmetic is modelled exactly (no rounding); every
    concrete path evaluated in this file stays within exactly representable
    values.  `log2` on positive finite arguments is rounding-dependent, so it
    is a parameter `f : ℚ → ℚ` of the definitions that use it; theorems hold
    for every such `f`.
  - exact real numbers (`ℝ`) for the analytic entropy-bound claims (and for
    the spec's "mathematically in (0,1)" sentence about the likelihood), the
    standard idealisation of float formulas;
  - `Double`: binary64 values in computable dyadic form (`m * 2^e`) for the
    likelihood pipeline, where saturation is observable: `*`, `+`, `-` are
    modelled exactly (round-to-nearest, ties-to-even, overflow to `±∞`,
    validated against IEEE-754 results), `exp` has its guaranteed
    overflow/underflow saturation branches explicit and its in-range
    rounding abstracted as a parameter, like `log2` above;
* the array indexing `ret[word_score] += 1` (which panics in Rust when out of
  bounds) becomes an `Option`-returning update, `none` modelling the panic.
-/

set_option maxRecDepth 10000

namespace WordleSolver

/-- Words are `[char; 5]` in the source: lists of length 5 by precondition. -/
abbrev Word := List Char

/-- Source: `const MAX_SCORE:usize = 3_usize.pow(5);` -/
def MAX_SCORE : ℕ := 3 ^ 5

/-- Source `to_ternary`: fold over the characters of the feedback string,
`ret = ret*3 + digit` with digit 1 for 'y', 2 for 'g', 0 otherwise. -/
def to_ternary (result : List Char) : ℕ :=
  result.foldl
    (fun ret ch => ret * 3 + (if ch = 'y' then 1 else if ch = 'g' then 2 else 0)) 0

/-- Loop body of source `from_ternary`: `while t > 0 { pos -= 1; digit = t % 3;
ret[pos] = ...; t /= 3 }`.  The first argument is fuel bounding the iteration
count; the Rust loop terminates because `t` strictly decreases, and `t`
iterations always suffice (`t/3 < t` for `t > 0`), so `from_ternary` passes
`t` itself as fuel and the fuel is never exhausted. -/
def from_ternaryAux : ℕ → ℕ → ℕ → List Char → List Char
  | 0, _, _, ret => ret
  | fuel + 1, t, pos, ret =>
    if t = 0 then ret
    else
      let pos1 := pos - 1
      let digit := t % 3
      let ret1 := if digit = 1 then ret.set pos1 'y'
        else if digit = 2 then ret.set pos1 'g'
        else ret.set pos1 'b'
      from_ternaryAux fuel (t / 3) pos1 ret1

/-- Source `from_ternary`: decode a ternary score into the 5-character
b/y/g pattern, least-significant digit written rightmost. -/
def from_ternary (t : ℕ) : List Char :=
  from_ternaryAux t t 5 ['b', 'b', 'b', 'b', 'b']

/-- One iteration of the first loop of source `score_guess` (exact-match pass):
if `g[idx] == c[idx]` then `g[idx] = ':'; c[idx] = '?'; ret += 3^(4-idx)*2`.
State is `(g, c, ret)`. -/
def pass1Step (idx : ℕ) : List Char × List Char × ℕ → List Char × List Char × ℕ
  | (g, c, ret) =>
    if g.getD idx ' ' == c.getD idx ' ' then
      (g.set idx ':', c.set idx '?', ret + 3 ^ (4 - idx) * 2)
    else
      (g, c, ret)

/-- The inner loop of the second pass of source `score_guess`:
`for cidx in 0..c.len() { if c[cidx] == g[idx] { ...; break; } }` —
the index of the first element of `c` equal to `ch`, if any. -/
def findMatchIdx (c : List Char) (ch : Char) : Option ℕ :=
  match c with
  | [] => none
  | x :: rest => if x == ch then some 0 else (findMatchIdx rest ch).map (· + 1)

/-- One iteration of the second loop of source `score_guess` (present-elsewhere
pass): consume the first position of `c` holding `g[idx]` and add `3^(4-idx)`.
State is `(c, ret)`; `g` is fixed after pass 1. -/
def pass2Step (g : List Char) (idx : ℕ) : List Char × ℕ → List Char × ℕ
  | (c, ret) =>
    match findMatchIdx c (g.getD idx ' ') with
    | some cidx => (c.set cidx '?', ret + 3 ^ (4 - idx))
    | none => (c, ret)

/-- First loop of source `score_guess`, folded over the index range. -/
def pass1 (l : List ℕ) (s : List Char × List Char × ℕ) :
    List Char × List Char × ℕ :=
  l.foldl (fun s idx => pass1Step idx s) s

/-- Second loop of source `score_guess`, folded over the index range. -/
def pass2 (g : List Char) (l : List ℕ) (s : List Char × ℕ) : List Char × ℕ :=
  l.foldl (fun s idx => pass2Step g idx s) s

/-- Source `score_guess`: two passes over scratch copies of the words; the
index ranges `0..g.len()` are the literal list `[0, 1, 2, 3, 4]` since the
source arrays have type `[char; 5]`. -/
def score_guess (guess candidate : List Char) : ℕ :=
  (pass2 (pass1 [0, 1, 2, 3, 4] (guess, candidate, 0)).1 [0, 1, 2, 3, 4]
    ((pass1 [0, 1, 2, 3, 4] (guess, candidate, 0)).2.1,
     (pass1 [0, 1, 2, 3, 4] (guess, candidate, 0)).2.2)).2

/-- Source `filter_candidates`: `candidates.retain(|candidate, _freq|
score_guess(word, candidate) == score)`.  The likelihood payload type is
abstracted as `α` (the source fixes `f64`); the predicate reads only the key. -/
def filter_candidates {α : Type} (word : List Char) (score : ℕ)
    (candidates : List (List Char × α)) : List (List Char × α) :=
  candidates.filter (fun candidate => score_guess word candidate.1 == score)

/-- Model of IEEE-754 binary64 values: exact rationals plus the special values
`±∞` (`inf true` is `+∞`) and `NaN`.  Signed zero is not modelled (a single
zero), and finite arithmetic is exact rather than rounded; every concrete
value evaluated in this development is exactly representable, where the two
semantics agree. -/
inductive F64 where
  | num : ℚ → F64
  | inf : Bool → F64
  | nan : F64
deriving DecidableEq

/-- IEEE `==` on doubles: `NaN` compares unequal to everything. -/
def F64.beq : F64 → F64 → Bool
  | .nan, _ => false
  | _, .nan => false
  | .num a, .num b => decide (a = b)
  | .inf s, .inf t => s == t
  | .num _, .inf _ => false
  | .inf _, .num _ => false

/-- IEEE `<=` on doubles: any comparison involving `NaN` is false. -/
def F64.le : F64 → F64 → Bool
  | .nan, _ => false
  | _, .nan => false
  | .inf false, _ => true
  | .num _, .inf false => false
  | .num a, .num b => decide (a ≤ b)
  | .num _, .inf true => true
  | .inf true, .inf false => false
  | .inf true, .num _ => false
  | .inf true, .inf true => true

/-- IEEE `>` on doubles: any comparison involving `NaN` is false. -/
def F64.gt : F64 → F64 → Bool
  | .nan, _ => false
  | _, .nan => false
  | .num a, .num b => decide (b < a)
  | .inf true, .num _ => true
  | .inf true, .inf false => true
  | .inf true, .inf true => false
  | .inf false, _ => false
  | .num _, .inf true => false
  | .num _, .inf false => true

/-- Total order on `F64` modelling the Rust sort comparator
`a.1.partial_cmp(&b.1).unwrap()`: `partial_cmp` is defined (never panics)
exactly on non-NaN operands, where `leT` agrees with the IEEE order; `NaN`
(on which the source would panic) is placed below everything to make the
relation total.  The entries actually sorted are proved non-NaN. -/
def F64.leT : F64 → F64 → Bool
  | .nan, _ => true
  | _, .nan => false
  | .inf false, _ => true
  | .num _, .inf false => false
  | .num a, .num b => decide (a ≤ b)
  | .num _, .inf true => true
  | .inf true, .inf false => false
  | .inf true, .num _ => false
  | .inf true, .inf true => true

/-- IEEE subtraction: `NaN` propagates, `∞ - ∞ = NaN`. -/
def F64.sub : F64 → F64 → F64
  | .nan, _ => .nan
  | _, .nan => .nan
  | .num a, .num b => .num (a - b)
  | .num _, .inf s => .inf (!s)
  | .inf s, .num _ => .inf s
  | .inf s, .inf t => if s = t then .nan else .inf s

/-- IEEE multiplication: `NaN` propagates, `0 * ∞ = NaN`. -/
def F64.mul : F64 → F64 → F64
  | .nan, _ => .nan
  | _, .nan => .nan
  | .num a, .num b => .num (a * b)
  | .num a, .inf s => if a = 0 then .nan else .inf (decide (0 < a) == s)
  | .inf s, .num b => if b = 0 then .nan else .inf (decide (0 < b) == s)
  | .inf s, .inf t => .inf (s == t)

/-- IEEE division: `NaN` propagates, `0 / 0 = NaN`, `a / 0 = ±∞` for finite
`a ≠ 0`, finite `/ ∞ = 0` (signed zero not modelled), `∞ / ∞ = NaN`. -/
def F64.div : F64 → F64 → F64
  | .nan, _ => .nan
  | _, .nan => .nan
  | .num a, .num b =>
    if b = 0 then (if a = 0 then .nan else .inf (decide (0 < a))) else .num (a / b)
  | .num _, .inf _ => .num 0
  | .inf s, .num b => if b < 0 then .inf (!s) else .inf s
  | .inf _, .inf _ => .nan

/-- IEEE `log2` (`f64::log2` in the source): `log2 NaN = NaN`,
`log2 (+∞) = +∞`, `log2 (-∞) = NaN`, `log2 0 = -∞`, negative → `NaN`.
On positive finite arguments the result is finite but rounding-dependent, so
it is supplied by the parameter `f`; all theorems hold for every `f`. -/
def F64.log2 (f : ℚ → ℚ) : F64 → F64
  | .nan => .nan
  | .inf s => if s then .inf true else .nan
  | .num q => if q < 0 then .nan else if q = 0 then .inf false else .num (f q)

/-- The array update `ret[word_score as usize] += 1` of source
`score_against_dictionary`; out-of-bounds indexing panics in Rust, modelled
by `none`. -/
def bump (a : List ℤ) (i : ℕ) : Option (List ℤ) :=
  if i < a.length then some (a.set i (a.getD i 0 + 1)) else none

/-- Source `score_against_dictionary`: bucket the candidate words of the map
by the score the guess would receive against each, over `MAX_SCORE` buckets.
`none` models an index-out-of-bounds panic. -/
def score_against_dictionary {α : Type} (guess : List Char)
    (dictionary : List (List Char × α)) : Option (List ℤ) :=
  dictionary.foldl
    (fun acc word => acc.bind fun ret => bump ret (score_guess guess word.1))
    (some (List.replicate MAX_SCORE 0))

/-- Loop body of source `scores_to_entropy`:
`guess_prob = *score as f64 / frequencies.len() as f64;`
`information = if guess_prob == 0.0 { 0.0 } else { guess_prob * guess_prob.log2() };`
`entropy -= information;`. -/
def entropyStep (f : ℚ → ℚ) (frequencies : List (List Char × F64))
    (entropy : F64) (score : ℤ) : F64 :=
  let guess_prob := F64.div (.num (score : ℚ)) (.num (frequencies.length : ℚ))
  let information :=
    if (guess_prob.beq (.num 0)) = true then F64.num 0
    else guess_prob.mul (guess_prob.log2 f)
  entropy.sub information

/-- Source `scores_to_entropy` over the `F64` model: fold `entropyStep` over
the 243 buckets starting from `0.0`. -/
def scores_to_entropy (f : ℚ → ℚ) (scores : List ℤ)
    (frequencies : List (List Char × F64)) : F64 :=
  scores.foldl (entropyStep f frequencies) (.num 0)

/-- Source `compute_guess_power`: entropy of the guess's score distribution
over the remaining candidates; `none` models the panic of an out-of-range
bucket index. -/
def compute_guess_power (f : ℚ → ℚ) (guess : List Char)
    (frequencies : List (List Char × F64)) : Option F64 :=
  (score_against_dictionary guess frequencies).map
    (fun scores => scores_to_entropy f scores frequencies)

/-- The comparator of `ret.sort_by(|a,b| a.1.partial_cmp(&b.1).unwrap())` in
source `compute_best_guesses` (the tuple's `.1` is the entropy). -/
def powLE (a b : List Char × F64) : Prop := F64.leT a.2 b.2 = true

instance : DecidableRel powLE := fun _ _ => instDecidableEqBool _ true

/-- Source `compute_best_guesses`: for every word of the full dictionary
compute its guess power against the remaining candidates, keep those with
power `> 0.0`, and sort ascending by power.  Rust's `sort_by` is a stable
sort, modelled by insertion sort; `none` models a panic while scoring. -/
def compute_best_guesses (f : ℚ → ℚ) (freq_entries : List (List Char × F64))
    (remaining_candidates : List (List Char × F64)) :
    Option (List (List Char × F64)) :=
  (freq_entries.foldl
    (fun acc entry => acc.bind fun ret =>
      (compute_guess_power f entry.1 remaining_candidates).map
        (fun guess_power =>
          if F64.gt guess_power (.num 0) then ret ++ [(entry.1, guess_power)]
          else ret))
    (some []))
  |>.map (fun ret => ret.insertionSort powLE)

/-- Source `quadratic_curve_fit` over exact reals — the idealisation behind
the spec's sentence that the likelihood is "mathematically" in `(0, 1)`.
The program itself computes in binary64; the faithful model is
`quadratic_curve_fit` on `Double` below. -/
noncomputable def quadratic_curve_fitR (x : ℝ) : ℝ :=
  -19970122538.988 * x * x + 41168735.495139 * x - 10

/-- Source `sigmoid` over exact reals (idealisation, see
`quadratic_curve_fitR`): `1 / (1 + (-x).exp())`. -/
noncomputable def sigmoidR (x : ℝ) : ℝ :=
  1 / (1 + Real.exp (-x))

/-- The `information` term of one bucket of source `scores_to_entropy` over
exact reals: `guess_prob * guess_prob.log2()`, short-circuited to 0 for
`guess_prob == 0.0`, with `guess_prob = *score as f64 / frequencies.len()`. -/
noncomputable def informationR {α : Type}
    (frequencies : List (List Char × α)) (score : ℤ) : ℝ :=
  if (score : ℝ) / (frequencies.length : ℝ) = 0 then 0
  else ((score : ℝ) / (frequencies.length : ℝ)) *
    Real.logb 2 ((score : ℝ) / (frequencies.length : ℝ))

/-- Loop body of source `scores_to_entropy` over exact reals:
`entropy -= information`. -/
noncomputable def entropyStepR {α : Type}
    (frequencies : List (List Char × α)) (entropy : ℝ) (score : ℤ) : ℝ :=
  entropy - informationR frequencies score

/-- Source `scores_to_entropy` over exact reals (the idealisation of the f64
formula used for the analytic entropy-bound claims): Shannon entropy in bits,
with the `guess_prob == 0.0` branch short-circuiting zero buckets. -/
noncomputable def scores_to_entropyR {α : Type} (scores : List ℤ)
    (frequencies : List (List Char × α)) : ℝ :=
  scores.foldl (entropyStepR frequencies) 0

/-- Bit length of a natural number, computed with fuel (the first argument);
`n` itself always suffices as fuel since `n / 2 < n` for `n > 0`. -/
def blenAux : ℕ → ℕ → ℕ
  | 0, _ => 0
  | _ + 1, 0 => 0
  | fuel + 1, n + 1 => blenAux fuel ((n + 1) / 2) + 1

/-- Bit length: `blen n = ⌈log2 (n+1)⌉`, 0 for 0. -/
def blen (n : ℕ) : ℕ := blenAux n n

/-- Strip trailing zero bits of a significand, with fuel (the significand
itself always suffices), moving them into the exponent. -/
def canonAux : ℕ → ℕ → ℤ → ℕ × ℤ
  | 0, m, e => (m, e)
  | fuel + 1, m, e =>
    if m ≠ 0 ∧ m % 2 = 0 then canonAux fuel (m / 2) (e + 1) else (m, e)

/-- Model of a binary64 value in exactly computable form: a finite value is
`num m e` = `m * 2^e` with `m` odd in canonical form (`num 0 0` is the single
zero; the sign of zero is not modelled), plus `±∞` (`inf true` is `+∞`) and
`NaN`.  This is the model used for the likelihood pipeline, where binary64
saturation (overflow of `exp` to `+∞`, giving a likelihood of exactly `0.0`)
is observable behaviour the exact-real idealisation would erase. -/
inductive Double where
  | num : ℤ → ℤ → Double
  | inf : Bool → Double
  | nan : Double
deriving DecidableEq

/-- Canonical finite value from a sign, magnitude and exponent. -/
def mkNum (neg : Bool) (a : ℕ) (e : ℤ) : Double :=
  if a = 0 then .num 0 0
  else
    let c := canonAux a a e
    .num (if neg then -(c.1 : ℤ) else (c.1 : ℤ)) c.2

/-- Round the exact dyadic `m * 2^e` to the nearest binary64 value
(round-to-nearest, ties-to-even), the IEEE-754 default: keep 53 significand
bits (fewer in the subnormal range, grid clamped at `2^-1074`), round the cut
bits by comparison with the half point, break ties to the even significand,
and overflow to `±∞` when the rounded magnitude reaches `2^1024`.  The exact
products, sums and differences of binary64 values are dyadics, so this models
binary64 `*`, `+` and `-` exactly. -/
def roundDy (m : ℤ) (e : ℤ) : Double :=
  if m = 0 then .num 0 0
  else
    let neg := decide (m < 0)
    let a := m.natAbs
    let p : ℤ := max (e + blen a - 53) (-1074)
    let s : ℤ := p - e
    let M : ℕ :=
      if s ≤ 0 then a * 2 ^ (-s).toNat
      else
        let d := 2 ^ s.toNat
        let q := a / d
        let r := a % d
        let half := d / 2
        if r > half then q + 1
        else if r < half then q
        else if q % 2 = 0 then q else q + 1
    if M = 0 then .num 0 0
    else if (blen M : ℤ) + p > 1024 then .inf (!neg)
    else mkNum neg M p

/-- Dyadic comparison: `m1 * 2^e1 < m2 * 2^e2`, by scaling to the smaller
exponent. -/
def dlt (m1 e1 m2 e2 : ℤ) : Bool :=
  if e1 ≥ e2 then decide (m1 * 2 ^ (e1 - e2).toNat < m2)
  else decide (m1 < m2 * 2 ^ (e2 - e1).toNat)

/-- Dyadic comparison: `m1 * 2^e1 ≤ m2 * 2^e2`. -/
def dle (m1 e1 m2 e2 : ℤ) : Bool := !dlt m2 e2 m1 e1

/-- Binary64 negation (exact). -/
def Double.neg : Double → Double
  | .num m e => if m = 0 then .num 0 0 else .num (-m) e
  | .inf s => .inf (!s)
  | .nan => .nan

/-- Binary64 multiplication: the exact product of finite values is a dyadic,
rounded by `roundDy`; `NaN` propagates and `0 * ∞ = NaN`. -/
def Double.mul : Double → Double → Double
  | .nan, _ => .nan
  | _, .nan => .nan
  | .num m1 e1, .num m2 e2 => roundDy (m1 * m2) (e1 + e2)
  | .num m1 _, .inf s => if m1 = 0 then .nan else .inf (decide (0 < m1) == s)
  | .inf s, .num m2 _ => if m2 = 0 then .nan else .inf (decide (0 < m2) == s)
  | .inf s, .inf t => .inf (s == t)

/-- Binary64 addition: the exact sum of finite values is a dyadic (after
aligning exponents), rounded by `roundDy`; `∞ - ∞ = NaN`. -/
def Double.add : Double → Double → Double
  | .nan, _ => .nan
  | _, .nan => .nan
  | .num m1 e1, .num m2 e2 =>
    if e1 ≥ e2 then roundDy (m1 * 2 ^ (e1 - e2).toNat + m2) e2
    else roundDy (m1 + m2 * 2 ^ (e2 - e1).toNat) e1
  | .num _ _, .inf s => .inf s
  | .inf s, .num _ _ => .inf s
  | .inf s, .inf t => if s = t then .inf s else .nan

/-- Binary64 subtraction: `x - y = x + (-y)` exactly in IEEE-754. -/
def Double.sub (a b : Double) : Double := a.add b.neg

/-- Binary64 `exp` (`f64::exp` in the source).  The special values follow
IEEE (`exp(+∞) = +∞`, `exp(-∞) = +0`, `exp(0) = 1`).  For finite arguments
`x ≥ 710` the true value exceeds `2^1024` (since `1024·ln 2 < 709.79`), so
every faithful implementation overflows to `+∞`; for `x ≤ -746` the true
value is below `2^-1075`, half the least subnormal, so the result is exactly
`+0`.  In between the result is correctly-rounded-dependent and is supplied
by the parameter `t` (which may return any value, so the true libm is one
instance); all theorems hold for every `t`. -/
def Double.exp (t : ℤ → ℤ → Double) : Double → Double
  | .nan => .nan
  | .inf s => if s then .inf true else .num 0 0
  | .num m e =>
    if m = 0 then .num 1 0
    else if dle 710 0 m e then .inf true
    else if dle m e (-746) 0 then .num 0 0
    else t m e

/-- Binary64 division.  Special operands follow IEEE exactly
(`x / ±∞ = 0`, `±∞ / x = ±∞`, `0 / 0 = NaN`, finite `/ 0 = ±∞`); the
correctly rounded quotient of two nonzero finite values is supplied by the
parameter `d` (any value, so the true rounding is one instance); all
theorems hold for every `d`. -/
def Double.div (d : ℤ → ℤ → ℤ → ℤ → Double) : Double → Double → Double
  | .nan, _ => .nan
  | _, .nan => .nan
  | .num m1 e1, .num m2 e2 =>
    if m2 = 0 then (if m1 = 0 then .nan else .inf (decide (0 < m1)))
    else if m1 = 0 then .num 0 0
    else d m1 e1 m2 e2
  | .num _ _, .inf _ => .num 0 0
  | .inf s, .num m2 _ => if m2 < 0 then .inf (!s) else .inf s
  | .inf _, .inf _ => .nan

/-- Binary64 `>`: comparisons involving `NaN` are false. -/
def Double.gt : Double → Double → Bool
  | .nan, _ => false
  | _, .nan => false
  | .num m1 e1, .num m2 e2 => dlt m2 e2 m1 e1
  | .inf s, .num _ _ => s
  | .num _ _, .inf s => !s
  | .inf s, .inf t => s && !t

/-- The binary64 value of the source literal `-19970122538.988`
(`-2617523901430235 * 2^-17`). -/
def FIT_A : Double := .num (-2617523901430235) (-17)

/-- The binary64 value of the source literal `41168735.495139`
(`345348383924407 * 2^-23`). -/
def FIT_B : Double := .num 345348383924407 (-23)

/-- The binary64 value of the source literal `10_f64` (`5 * 2^1`). -/
def FIT_C : Double := .num 5 1

/-- The binary64 value nearest `0.003` (`3458764513820541 * 2^-60`), a
concrete frequency at which the likelihood saturates to exactly `0.0`. -/
def FREQ0003 : Double := .num 3458764513820541 (-60)

/-- Source `quadratic_curve_fit` over binary64:
`-19970122538.988*x*x + 41168735.495139*x - 10_f64`, with Rust's
left-to-right evaluation `((a*x)*x + b*x) - 10`, each operation rounded. -/
def quadratic_curve_fit (x : Double) : Double :=
  Double.sub (Double.add (Double.mul (Double.mul FIT_A x) x)
    (Double.mul FIT_B x)) FIT_C

/-- Source `sigmoid` over binary64: `1_f64 / (1f64 + (-x).exp())`, with the
`exp` and finite-quotient roundings abstracted as parameters `t` and `d`. -/
def sigmoid (t : ℤ → ℤ → Double) (d : ℤ → ℤ → ℤ → ℤ → Double)
    (x : Double) : Double :=
  Double.div d (.num 1 0) (Double.add (.num 1 0) (Double.exp t x.neg))

/-- Source `build_remaining_candidates` over binary64: insert every
frequency entry whose likelihood `sigmoid(quadratic_curve_fit(freq))`
compares strictly greater than `0.0`.  The `HashMap` insert is modelled as
appending to an association list. -/
def build_remaining_candidates (t : ℤ → ℤ → Double)
    (d : ℤ → ℤ → ℤ → ℤ → Double)
    (freq_entries : List (List Char × Double)) : List (List Char × Double) :=
  freq_entries.foldl
    (fun m x =>
      let likelihood := sigmoid t d (quadratic_curve_fit x.2)
      if likelihood.gt (.num 0 0) then m ++ [(x.1, likelihood)] else m)
    []

/-- The precondition every word of the solver satisfies: exactly 5 lowercase
ASCII letters (the fixed alphabet of the spec's data model). -/
def wordOk (w : List Char) : Prop :=
  w.length = 5 ∧ ∀ ch ∈ w, 'a' ≤ ch ∧ ch ≤ 'z'

instance : DecidablePred wordOk := fun w => by unfold wordOk; infer_instance

/-- Weight a position contributes to the pass-2 budget of `score_guess`:
`3^(4-i)` if the guess letter at `i` is still unconsumed (not `':'`), else 0. -/
def unmarkedWeight (g : List Char) (i : ℕ) : ℕ :=
  if g.getD i ' ' = ':' then 0 else 3 ^ (4 - i)

/-- The number of candidate words of the map that `score_guess` sends to
bucket `j`; the value `score_against_dictionary` accumulates there. -/
def scoreCount {α : Type} (guess : List Char) (dict : List (List Char × α))
    (j : ℕ) : ℕ :=
  (dict.filter (fun e => score_guess guess e.1 == j)).length

/-- The unsorted content of `compute_best_guesses`: each dictionary word
paired with its guess power, keeping exactly the entries with power
`> 0.0`. -/
def positiveGuesses (f : ℚ → ℚ) (freq_entries : List (List Char × F64))
    (remaining : List (List Char × F64)) : List (List Char × F64) :=
  freq_entries.filterMap
    (fun entry => (compute_guess_power f entry.1 remaining).bind
      (fun gp => if F64.gt gp (.num 0) then some (entry.1, gp) else none))

instance : IsTrans (List Char × F64) powLE :=
  ⟨fun a b c hab hbc => by
    obtain ⟨wa, va⟩ := a
    obtain ⟨wb, vb⟩ := b
    obtain ⟨wc, vc⟩ := c
    simp only [powLE] at hab hbc ⊢
    rcases va with qa | sa | _ <;> rcases vb with qb | sb | _ <;>
      rcases vc with qc | sc | _
    all_goals try cases sa
    all_goals try cases sb
    all_goals try cases sc
    all_goals simp_all [F64.leT]
    all_goals exact le_trans hab hbc⟩

instance : IsTotal (List Char × F64) powLE :=
  ⟨fun a b => by
    obtain ⟨wa, va⟩ := a
    obtain ⟨wb, vb⟩ := b
    simp only [powLE]
    rcases va with qa | sa | _ <;> rcases vb with qb | sb | _
    all_goals try cases sa
    all_goals try cases sb
    all_goals simp_all [F64.leT]
    all_goals exact le_total qa qb⟩

/-! ### Helper lemmas -/

/-- Subtracting anything from `NaN` stays `NaN`. -/
theorem F64.nan_sub (x : F64) : F64.sub .nan x = .nan := by
  cases x <;> rfl

/-- The entropy accumulator absorbs `NaN`: once poisoned, the fold stays
`NaN` whatever the remaining buckets hold. -/
theorem entropy_foldl_nan (f : ℚ → ℚ) (frequencies : List (List Char × F64)) :
    ∀ scores : List ℤ, scores.foldl (entropyStep f frequencies) .nan = .nan := by
  intro scores
  induction scores with
  | nil => rfl
  | cons s rest ih =>
    have h : entropyStep f frequencies .nan s = .nan := by
      unfold entropyStep
      exact F64.nan_sub _
    rw [List.foldl_cons, h, ih]

/-- Over an empty candidate map every bucket count is 0 and the division
`0.0 / 0.0` yields `NaN`, which poisons the whole entropy sum. -/
theorem scores_to_entropy_empty_nan (f : ℚ → ℚ) :
    ∀ rest : List ℤ,
      scores_to_entropy f ((0 : ℤ) :: rest) ([] : List (List Char × F64)) =
        .nan := by
  intro rest
  unfold scores_to_entropy
  rw [List.foldl_cons]
  have h : entropyStep f [] (.num 0) 0 = .nan := by
    unfold entropyStep
    norm_num
    rfl
  rw [h, entropy_foldl_nan]

/-- With an empty candidate map, every word's guess power is `NaN`, so the
`> 0.0` filter discards it and the accumulated list stays empty. -/
theorem best_guesses_foldl_empty (f : ℚ → ℚ) :
    ∀ freq_entries : List (List Char × F64), ∀ acc : List (List Char × F64),
      freq_entries.foldl
        (fun acc entry => acc.bind fun ret =>
          (compute_guess_power f entry.1 ([] : List (List Char × F64))).map
            (fun guess_power =>
              if F64.gt guess_power (.num 0) then ret ++ [(entry.1, guess_power)]
              else ret))
        (some acc) = some acc := by
  intro freq_entries
  induction freq_entries with
  | nil => intro acc; rfl
  | cons e rest ih =>
    intro acc
    rw [List.foldl_cons]
    have hp : compute_guess_power f e.1 ([] : List (List Char × F64)) =
        some F64.nan := by
      have h0 : compute_guess_power f e.1 ([] : List (List Char × F64)) =
          some (scores_to_entropy f ((0 : ℤ) :: List.replicate 242 0) []) := rfl
      rw [h0, scores_to_entropy_empty_nan]
    rw [show ((some acc).bind fun ret =>
        (compute_guess_power f e.1 ([] : List (List Char × F64))).map
          (fun guess_power =>
            if F64.gt guess_power (.num 0) then ret ++ [(e.1, guess_power)]
            else ret)) = some acc by rw [hp]; rfl]
    exact ih acc

/-- The exact-real logistic function lands in the open unit interval. -/
theorem sigmoidR_pos_lt_one (y : ℝ) : 0 < sigmoidR y ∧ sigmoidR y < 1 := by
  have hexp : 0 < Real.exp (-y) := Real.exp_pos _
  unfold sigmoidR
  constructor
  · exact div_pos one_pos (by linarith)
  · rw [div_lt_one (by linarith)]
    linarith

/-- The accumulation of `build_remaining_candidates` keeps exactly the
entries whose computed likelihood compares strictly greater than `0.0`. -/
theorem build_remaining_foldl (t : ℤ → ℤ → Double)
    (d : ℤ → ℤ → ℤ → ℤ → Double) (l : List (List Char × Double)) :
    ∀ acc : List (List Char × Double),
      l.foldl (fun m x =>
        let likelihood := sigmoid t d (quadratic_curve_fit x.2)
        if likelihood.gt (.num 0 0) then m ++ [(x.1, likelihood)] else m)
        acc =
      acc ++ l.filterMap (fun x =>
        if (sigmoid t d (quadratic_curve_fit x.2)).gt (.num 0 0) then
          some (x.1, sigmoid t d (quadratic_curve_fit x.2)) else none) := by
  induction l with
  | nil => intro acc; simp
  | cons x rest ih =>
    intro acc
    rw [List.foldl_cons, ih, List.filterMap_cons]
    cases hval : (sigmoid t d (quadratic_curve_fit x.2)).gt (.num 0 0)
    · simp [hval]
    · simp [hval]

/-- Unfolding equation for `pass1Step` on an explicit state triple. -/
theorem pass1Step_eq (idx : ℕ) (g c : List Char) (r : ℕ) :
    pass1Step idx (g, c, r) =
      if g.getD idx ' ' == c.getD idx ' ' then
        (g.set idx ':', c.set idx '?', r + 3 ^ (4 - idx) * 2)
      else (g, c, r) := rfl

/-- Unfolding equation for `pass2Step` on an explicit state pair. -/
theorem pass2Step_eq (g : List Char) (idx : ℕ) (c : List Char) (r : ℕ) :
    pass2Step g idx (c, r) =
      match findMatchIdx c (g.getD idx ' ') with
      | some cidx => (c.set cidx '?', r + 3 ^ (4 - idx))
      | none => (c, r) := rfl

/-- Unfolding: the pass-1 fold over an empty index list. -/
theorem pass1_nil (s : List Char × List Char × ℕ) : pass1 [] s = s := rfl

/-- Unfolding: the pass-1 fold over a cons index list. -/
theorem pass1_cons (idx : ℕ) (l : List ℕ) (s : List Char × List Char × ℕ) :
    pass1 (idx :: l) s = pass1 l (pass1Step idx s) := rfl

/-- Unfolding: the pass-2 fold over an empty index list. -/
theorem pass2_nil (g : List Char) (s : List Char × ℕ) : pass2 g [] s = s := rfl

/-- Unfolding: the pass-2 fold over a cons index list. -/
theorem pass2_cons (g : List Char) (idx : ℕ) (l : List ℕ) (s : List Char × ℕ) :
    pass2 g (idx :: l) s = pass2 g l (pass2Step g idx s) := rfl

/-- Setting one position leaves `getD` at other positions unchanged. -/
theorem getD_set_ne {γ : Type} (l : List γ) {i j : ℕ} (a d : γ) (h : i ≠ j) :
    (l.set i a).getD j d = l.getD j d := by
  simp [List.getD, List.getElem?_set_ne h]

/-- Setting an in-range position makes `getD` there return the new value. -/
theorem getD_set_self {γ : Type} (l : List γ) {i : ℕ} (a d : γ)
    (h : i < l.length) : (l.set i a).getD i d = a := by
  simp [List.getD, List.getElem?_set_self, h]

/-- An in-range `getD` is a member of the list. -/
theorem getD_mem {γ : Type} (l : List γ) {i : ℕ} (d : γ) (h : i < l.length) :
    l.getD i d ∈ l := by
  rw [List.getD_eq_getElem l d h]
  exact List.getElem_mem h

/-- A lowercase letter is never the consumed-marker `':'`. -/
theorem ne_colon_of_lower {ch : Char} (h : 'a' ≤ ch ∧ ch ≤ 'z') :
    ch ≠ ':' := by
  rintro rfl
  exact absurd h.1 (by decide)

/-- Pass 1 never touches the guess scratch array outside the index list. -/
theorem pass1_g_getD_of_not_mem :
    ∀ (l : List ℕ) (g c : List Char) (r : ℕ) {j : ℕ} (d : Char), j ∉ l →
      ((pass1 l (g, c, r)).1).getD j d = g.getD j d := by
  intro l
  induction l with
  | nil => intro g c r j d _; rfl
  | cons idx rest ih =>
    intro g c r j d hj
    have hj1 : j ∉ rest := fun hmem => hj (List.mem_cons_of_mem _ hmem)
    have hj2 : idx ≠ j := fun he => hj (he ▸ List.mem_cons_self _ _)
    rw [pass1_cons, pass1Step_eq]
    by_cases hcond : (g.getD idx ' ' == c.getD idx ' ') = true
    · rw [if_pos hcond, ih _ _ _ _ hj1, getD_set_ne _ _ _ hj2]
    · rw [if_neg hcond, ih _ _ _ _ hj1]

/-- Pass 1 leaves the length of the guess scratch array unchanged. -/
theorem pass1_g_length :
    ∀ (l : List ℕ) (g c : List Char) (r : ℕ),
      (pass1 l (g, c, r)).1.length = g.length := by
  intro l
  induction l with
  | nil => intro g c r; rfl
  | cons idx rest ih =>
    intro g c r
    rw [pass1_cons, pass1Step_eq]
    by_cases hcond : (g.getD idx ' ' == c.getD idx ' ') = true
    · rw [if_pos hcond, ih]
      exact List.length_set ..
    · rw [if_neg hcond, ih]

/-- Every entry of the candidate scratch array after pass 1 is either an
original candidate letter or the consumed-marker `'?'`. -/
theorem pass1_c_entries :
    ∀ (l : List ℕ) (g c : List Char) (r : ℕ) (x : Char),
      x ∈ (pass1 l (g, c, r)).2.1 → x ∈ c ∨ x = '?' := by
  intro l
  induction l with
  | nil => intro g c r x hx; exact Or.inl hx
  | cons idx rest ih =>
    intro g c r x hx
    rw [pass1_cons, pass1Step_eq] at hx
    by_cases hcond : (g.getD idx ' ' == c.getD idx ' ') = true
    · rw [if_pos hcond] at hx
      rcases ih _ _ _ _ hx with h | h
      · exact List.mem_or_eq_of_mem_set h
      · exact Or.inr h
    · rw [if_neg hcond] at hx
      exact ih _ _ _ _ hx

/-- Budget invariant of pass 1: the accumulated score plus the pass-2 budget
of the still-unconsumed positions never exceeds the all-Correct total of the
processed positions.  Requires the processed indices to be distinct,
in-range, and initially unconsumed. -/
theorem pass1_ret_bound :
    ∀ (l : List ℕ) (g c : List Char) (r : ℕ), l.Nodup →
      (∀ i ∈ l, i < g.length) → (∀ i ∈ l, g.getD i ' ' ≠ ':') →
      (pass1 l (g, c, r)).2.2 +
        (l.map (unmarkedWeight (pass1 l (g, c, r)).1)).sum ≤
      r + (l.map (fun i => 3 ^ (4 - i) * 2)).sum := by
  intro l
  induction l with
  | nil => intro g c r _ _ _; simp [pass1_nil]
  | cons idx rest ih =>
    intro g c r hnd hlen hne
    have hidx_rest : idx ∉ rest := (List.nodup_cons.mp hnd).1
    have hnd' : rest.Nodup := (List.nodup_cons.mp hnd).2
    have hidx_len : idx < g.length := hlen idx (List.mem_cons_self _ _)
    rw [pass1_cons, pass1Step_eq]
    by_cases hcond : (g.getD idx ' ' == c.getD idx ' ') = true
    · rw [if_pos hcond]
      have hlen' : ∀ i ∈ rest, i < (g.set idx ':').length := by
        intro i hi
        rw [List.length_set]
        exact hlen i (List.mem_cons_of_mem _ hi)
      have hne' : ∀ i ∈ rest, (g.set idx ':').getD i ' ' ≠ ':' := by
        intro i hi
        have : idx ≠ i := fun he => hidx_rest (he ▸ hi)
        rw [getD_set_ne _ _ _ this]
        exact hne i (List.mem_cons_of_mem _ hi)
      have hIH := ih (g.set idx ':') (c.set idx '?') (r + 3 ^ (4 - idx) * 2)
        hnd' hlen' hne'
      have hmark :
          unmarkedWeight (pass1 rest (g.set idx ':', c.set idx '?',
            r + 3 ^ (4 - idx) * 2)).1 idx = 0 := by
        unfold unmarkedWeight
        rw [pass1_g_getD_of_not_mem rest _ _ _ _ hidx_rest,
          getD_set_self _ _ _ hidx_len]
        simp
      rw [List.map_cons, List.map_cons, List.sum_cons, List.sum_cons, hmark]
      omega
    · rw [if_neg hcond]
      have hIH := ih g c r hnd'
        (fun i hi => hlen i (List.mem_cons_of_mem _ hi))
        (fun i hi => hne i (List.mem_cons_of_mem _ hi))
      have hunm :
          unmarkedWeight (pass1 rest (g, c, r)).1 idx ≤ 3 ^ (4 - idx) * 2 := by
        unfold unmarkedWeight
        split
        · omega
        · exact Nat.le_mul_of_pos_right _ (by norm_num)
      rw [List.map_cons, List.map_cons, List.sum_cons, List.sum_cons]
      omega

/-- A successful inner-loop search returns a letter that is present in the
candidate scratch array. -/
theorem findMatchIdx_mem :
    ∀ (c : List Char) (ch : Char) (i : ℕ), findMatchIdx c ch = some i →
      ch ∈ c := by
  intro c
  induction c with
  | nil => intro ch i h; exact absurd h (by simp [findMatchIdx])
  | cons x rest ih =>
    intro ch i h
    unfold findMatchIdx at h
    by_cases hx : (x == ch) = true
    · rw [beq_iff_eq] at hx
      exact hx ▸ List.mem_cons_self _ _
    · rw [if_neg hx] at h
      rcases Option.map_eq_some'.mp h with ⟨j, hj, _⟩
      exact List.mem_cons_of_mem _ (ih ch j hj)

/-- Budget bound of pass 2: as long as the candidate scratch array never
contains `':'`, each index adds at most its unconsumed weight — consumed
guess positions (marked `':'`) can never match. -/
theorem pass2_ret_bound :
    ∀ (l : List ℕ) (g c : List Char) (r : ℕ), (∀ y ∈ c, y ≠ ':') →
      (pass2 g l (c, r)).2 ≤ r + (l.map (unmarkedWeight g)).sum := by
  intro l g
  induction l with
  | nil => intro c r _; simp [pass2_nil]
  | cons idx rest ih =>
    intro c r hc
    rw [pass2_cons]
    rcases hfind : findMatchIdx c (g.getD idx ' ') with _ | cidx
    · have hstep : pass2Step g idx (c, r) = (c, r) := by
        show (match findMatchIdx c (g.getD idx ' ') with
          | some cidx => (c.set cidx '?', r + 3 ^ (4 - idx))
          | none => (c, r)) = (c, r)
        rw [hfind]
      rw [hstep]
      have := ih c r hc
      rw [List.map_cons, List.sum_cons]
      omega
    · have hstep : pass2Step g idx (c, r) =
          (c.set cidx '?', r + 3 ^ (4 - idx)) := by
        show (match findMatchIdx c (g.getD idx ' ') with
          | some cidx => (c.set cidx '?', r + 3 ^ (4 - idx))
          | none => (c, r)) = (c.set cidx '?', r + 3 ^ (4 - idx))
        rw [hfind]
      rw [hstep]
      have hch : g.getD idx ' ' ∈ c := findMatchIdx_mem c _ cidx hfind
      have hne : g.getD idx ' ' ≠ ':' := hc _ hch
      have hw : unmarkedWeight g idx = 3 ^ (4 - idx) := by
        unfold unmarkedWeight
        rw [if_neg hne]
      have hc' : ∀ y ∈ c.set cidx '?', y ≠ ':' := by
        intro y hy
        rcases List.mem_or_eq_of_mem_set hy with h | h
        · exact hc y h
        · rw [h]; decide
      have := ih (c.set cidx '?') (r + 3 ^ (4 - idx)) hc'
      rw [List.map_cons, List.sum_cons]
      omega

/-- The score bound: every pair of 5-letter lowercase words scores at most
242 (each of the five ternary digits is at most 2). -/
theorem score_guess_le (guess candidate : List Char) (hg : wordOk guess)
    (hc : wordOk candidate) : score_guess guess candidate ≤ 242 := by
  unfold score_guess
  have hnd : ([0, 1, 2, 3, 4] : List ℕ).Nodup := by decide
  have hlt : ∀ i ∈ ([0, 1, 2, 3, 4] : List ℕ), i < 5 := by decide
  have hlen : ∀ i ∈ ([0, 1, 2, 3, 4] : List ℕ), i < guess.length := by
    intro i hi; rw [hg.1]; exact hlt i hi
  have hne : ∀ i ∈ ([0, 1, 2, 3, 4] : List ℕ), guess.getD i ' ' ≠ ':' := by
    intro i hi
    have hmem : guess.getD i ' ' ∈ guess := getD_mem _ _ (by rw [hg.1]; exact hlt i hi)
    exact ne_colon_of_lower (hg.2 _ hmem)
  have h1 := pass1_ret_bound [0, 1, 2, 3, 4] guess candidate 0 hnd hlen hne
  have hcent : ∀ y ∈ (pass1 [0, 1, 2, 3, 4] (guess, candidate, 0)).2.1,
      y ≠ ':' := by
    intro y hy
    rcases pass1_c_entries _ _ _ _ _ hy with h | h
    · exact ne_colon_of_lower (hc.2 _ h)
    · rw [h]; decide
  have h2 := pass2_ret_bound [0, 1, 2, 3, 4]
    (pass1 [0, 1, 2, 3, 4] (guess, candidate, 0)).1
    (pass1 [0, 1, 2, 3, 4] (guess, candidate, 0)).2.1
    (pass1 [0, 1, 2, 3, 4] (guess, candidate, 0)).2.2 hcent
  have htot : (([0, 1, 2, 3, 4] : List ℕ).map
      (fun i => 3 ^ (4 - i) * 2)).sum = 242 := by decide
  omega

/-- The accumulation of `score_against_dictionary` stays `some` as long as
every word's score indexes within the bucket array. -/
theorem sad_foldl_isSome {α : Type} (guess : List Char) :
    ∀ (dict : List (List Char × α)) (acc : List ℤ),
      (∀ e ∈ dict, score_guess guess e.1 < acc.length) →
      (dict.foldl
        (fun a w => a.bind fun ret => bump ret (score_guess guess w.1))
        (some acc)).isSome = true := by
  intro dict
  induction dict with
  | nil => intro acc _; rfl
  | cons w rest ih =>
    intro acc hlt
    rw [List.foldl_cons]
    have hs : score_guess guess w.1 < acc.length :=
      hlt w (List.mem_cons_self _ _)
    have hb : (some acc).bind (fun ret => bump ret (score_guess guess w.1)) =
        some (acc.set (score_guess guess w.1)
          (acc.getD (score_guess guess w.1) 0 + 1)) := by
      unfold bump
      rw [Option.some_bind, if_pos hs]
    rw [hb]
    apply ih
    intro e he
    rw [List.length_set]
    exact hlt e (List.mem_cons_of_mem _ he)

/-- A value strictly greater than `0.0` in the IEEE order is not `NaN`. -/
theorem F64.gt_ne_nan {x y : F64} (h : x.gt y = true) : x ≠ .nan := by
  rintro rfl
  rcases y with q | s | _ <;> simp [F64.gt] at h

/-- On non-NaN values the total sort order coincides with the IEEE order. -/
theorem F64.le_of_leT {x y : F64} (hx : x ≠ .nan) (hy : y ≠ .nan)
    (h : x.leT y = true) : x.le y = true := by
  rcases x with q | s | _ <;> rcases y with q2 | s2 | _ <;>
    first
    | exact absurd rfl hx
    | exact absurd rfl hy
    | ((try cases s) <;> (try cases s2) <;> first
        | rfl
        | exact h)

/-- Once the accumulator of `compute_best_guesses` is poisoned (`none`),
the fold stays `none`. -/
theorem best_guesses_foldl_none (f : ℚ → ℚ)
    (remaining : List (List Char × F64)) :
    ∀ freq_entries : List (List Char × F64),
      freq_entries.foldl
        (fun acc entry => acc.bind fun ret =>
          (compute_guess_power f entry.1 remaining).map
            (fun guess_power =>
              if F64.gt guess_power (.num 0) then ret ++ [(entry.1, guess_power)]
              else ret))
        none = none := by
  intro l
  induction l with
  | nil => rfl
  | cons e rest ih =>
    rw [List.foldl_cons]
    simpa using ih

/-- Characterisation of the accumulation of `compute_best_guesses`: a
successful fold produces the accumulator followed by exactly the
positive-power dictionary entries, in dictionary order. -/
theorem best_guesses_foldl_some (f : ℚ → ℚ)
    (remaining : List (List Char × F64)) :
    ∀ (freq_entries acc ret : List (List Char × F64)),
      freq_entries.foldl
        (fun acc entry => acc.bind fun ret =>
          (compute_guess_power f entry.1 remaining).map
            (fun guess_power =>
              if F64.gt guess_power (.num 0) then ret ++ [(entry.1, guess_power)]
              else ret))
        (some acc) = some ret →
      ret = acc ++ positiveGuesses f freq_entries remaining := by
  intro l
  induction l with
  | nil =>
    intro acc ret h
    injection h with h
    rw [← h]
    simp [positiveGuesses]
  | cons e rest ih =>
    intro acc ret h
    rw [List.foldl_cons] at h
    rcases hp : compute_guess_power f e.1 remaining with _ | gp
    · rw [Option.some_bind, hp, Option.map_none', best_guesses_foldl_none] at h
      exact absurd h (by simp)
    · have hstep : ((some acc).bind fun r =>
          (compute_guess_power f e.1 remaining).map
            (fun guess_power =>
              if F64.gt guess_power (.num 0) then r ++ [(e.1, guess_power)]
              else r)) =
          some (if F64.gt gp (.num 0) then acc ++ [(e.1, gp)] else acc) := by
        rw [Option.some_bind, hp]
        rfl
      rw [hstep] at h
      by_cases hg : F64.gt gp (F64.num 0) = true
      · rw [if_pos hg] at h
        have hPG : positiveGuesses f (e :: rest) remaining =
            (e.1, gp) :: positiveGuesses f rest remaining := by
          unfold positiveGuesses
          rw [List.filterMap_cons]
          have hred : ((compute_guess_power f e.1 remaining).bind
              (fun gp2 => if F64.gt gp2 (.num 0) then some (e.1, gp2)
                else none)) = some (e.1, gp) := by
            rw [hp, Option.some_bind, if_pos hg]
          rw [hred]
        rw [hPG, ih _ _ h]
        simp
      · rw [if_neg hg] at h
        have hPG : positiveGuesses f (e :: rest) remaining =
            positiveGuesses f rest remaining := by
          unfold positiveGuesses
          rw [List.filterMap_cons]
          have hred : ((compute_guess_power f e.1 remaining).bind
              (fun gp2 => if F64.gt gp2 (.num 0) then some (e.1, gp2)
                else none)) = none := by
            rw [hp, Option.some_bind, if_neg hg]
          rw [hred]
        rw [hPG]
        exact ih _ _ h

/-- Every entry of `positiveGuesses` has guess power strictly greater than
`0.0`. -/
theorem mem_positiveGuesses_gt (f : ℚ → ℚ)
    (freq_entries remaining : List (List Char × F64)) :
    ∀ x ∈ positiveGuesses f freq_entries remaining,
      F64.gt x.2 (F64.num 0) = true := by
  intro x hx
  rcases List.mem_filterMap.mp hx with ⟨a, _, hfa⟩
  rcases Option.bind_eq_some.mp hfa with ⟨gp, _, hif⟩
  by_cases hg : F64.gt gp (F64.num 0) = true
  · rw [if_pos hg] at hif
    injection hif with hif
    rw [← hif]
    exact hg
  · rw [if_neg hg] at hif
    exact absurd hif (by simp)

/-! ### Claim theorems -/

/-- Claim C1: `narrow(w, s, S)` (source `filter_candidates`) removes exactly
the entries whose computed score differs from `s`: the result is no longer
than `S`, keeps only entries of `S`, every kept entry scores `s`, and every
entry of `S` scoring `s` is kept, with its likelihood value unchanged. -/
theorem narrow_removes_exactly_mismatches {α : Type} (w : List Char) (s : ℕ)
    (S : List (List Char × α)) :
    (filter_candidates w s S).length ≤ S.length ∧
    (∀ e ∈ filter_candidates w s S, score_guess w e.1 = s) ∧
    (∀ e ∈ filter_candidates w s S, e ∈ S) ∧
    (∀ e ∈ S, score_guess w e.1 = s → e ∈ filter_candidates w s S) := by
  refine ⟨List.length_filter_le _ _, ?_, ?_, ?_⟩
  · intro e he
    have := (List.mem_filter.mp he).2
    simpa using this
  · intro e he
    exact (List.mem_filter.mp he).1
  · intro e he hs
    exact List.mem_filter.mpr ⟨he, by simpa using hs⟩

/-- Claim C7: narrowing twice with the same observation `(w, s)` equals
narrowing once (filtering is idempotent). -/
theorem narrow_idempotent {α : Type} (w : List Char) (s : ℕ)
    (S : List (List Char × α)) :
    filter_candidates w s (filter_candidates w s S) = filter_candidates w s S := by
  unfold filter_candidates
  rw [List.filter_filter]
  simp

/-- Claim C3: for every score `s` in `[0, 242]`, encoding the 5-character
pattern produced by decoding `s` gives back `s`:
`to_ternary (from_ternary s) = s`. -/
theorem encode_decode_roundtrip :
    ∀ s : Fin 243, to_ternary (from_ternary s.1) = s.1 := by decide

/-- Claim C4: a word scored against itself yields 242, which decodes to the
all-Correct pattern `"ggggg"`. -/
theorem self_score_perfect (a b c d e : Char) :
    score_guess [a, b, c, d, e] [a, b, c, d, e] = 242 ∧
    from_ternary (score_guess [a, b, c, d, e] [a, b, c, d, e]) =
      ['g', 'g', 'g', 'g', 'g'] := by
  have h : score_guess [a, b, c, d, e] [a, b, c, d, e] = 242 := by
    simp [score_guess, pass1, pass2, pass1Step, pass2Step, findMatchIdx]
  exact ⟨h, by rw [h]; decide⟩

/-- Claim C5: with guess `"aaemp"`, both candidates `"maaph"` and `"mappa"`
score to the pattern `"ygbyy"` (duplicate candidate letters are consumed at
most as often as they occur). -/
theorem duplicate_letter_scores :
    from_ternary (score_guess ['a', 'a', 'e', 'm', 'p'] ['m', 'a', 'a', 'p', 'h']) =
      ['y', 'g', 'b', 'y', 'y'] ∧
    from_ternary (score_guess ['a', 'a', 'e', 'm', 'p'] ['m', 'a', 'p', 'p', 'a']) =
      ['y', 'g', 'b', 'y', 'y'] := by decide

/-- Claim C2, counterexample: at the concrete input of an all-zero bucket
array and an empty candidate map, the entropy computation of the source does
NOT yield 0 — the bucket probability is `0.0 / 0.0 = NaN`, the `== 0.0`
guard fails on `NaN`, and the resulting entropy is `NaN`. -/
theorem empty_set_entropy_is_nan_not_zero :
    scores_to_entropy (fun q => q) (List.replicate MAX_SCORE 0)
      ([] : List (List Char × F64)) = F64.nan ∧ F64.nan ≠ F64.num 0 := by
  constructor
  · rw [show List.replicate MAX_SCORE (0 : ℤ) = (0 : ℤ) :: List.replicate 242 0
      from rfl, scores_to_entropy_empty_nan]
  · decide

/-- Claim C2, amended: against an empty candidate set every guess's entropy
evaluates to `NaN` (each bucket contributes `0.0 / 0.0 = NaN`), not 0; since
`NaN > 0.0` is false, every guess is nevertheless discarded and the ranked
sequence is empty. -/
theorem empty_set_ranking_empty (f : ℚ → ℚ) (guess : List Char)
    (freq_entries : List (List Char × F64)) :
    compute_guess_power f guess ([] : List (List Char × F64)) = some F64.nan ∧
    compute_best_guesses f freq_entries ([] : List (List Char × F64)) =
      some [] := by
  constructor
  · have h0 : compute_guess_power f guess ([] : List (List Char × F64)) =
        some (scores_to_entropy f ((0 : ℤ) :: List.replicate 242 0) []) := rfl
    rw [h0, scores_to_entropy_empty_nan]
  · unfold compute_best_guesses
    rw [best_guesses_foldl_empty]
    rfl

/-- Claim C9, counterexample: at the concrete frequency nearest `0.003` the
binary64 pipeline computes `quadratic_curve_fit ≈ -56234.9 ≤ -710`, so
`(-x).exp()` overflows to `+∞`, `sigmoid = 1/(1+∞) = 0.0` exactly, the
likelihood is NOT strictly positive, and the `> 0` admission check REJECTS
the word — `build_remaining_candidates` drops it.  Evaluated at a concrete
instantiation of the `exp`/`div` rounding tables; the saturating path never
consults them. -/
theorem likelihood_zero_rejects_word :
    sigmoid (fun _ _ => .nan) (fun _ _ _ _ => .nan)
      (quadratic_curve_fit FREQ0003) = Double.num 0 0 ∧
    (Double.num 0 0).gt (Double.num 0 0) = false ∧
    build_remaining_candidates (fun _ _ => .nan) (fun _ _ _ _ => .nan)
      [(['a', 'a', 'a', 'a', 'a'], FREQ0003)] = [] := by
  refine ⟨by decide, by decide, ?_⟩
  decide

/-- Claim C9, amended: over exact reals the likelihood
`sigmoid (quadratic_curve_fit freq)` does lie in the open interval `(0, 1)`
for every frequency; but in the program's binary64 arithmetic the `exp` of
`sigmoid` saturates, the computed likelihood can be exactly `0.0` (it is at
the frequency nearest `0.003`, for every rounding of the abstracted
`exp`/`div` tables), and `build_remaining_candidates` admits exactly the
dictionary words whose computed likelihood compares strictly greater than
`0.0` — not necessarily every word. -/
theorem likelihood_positive_only_ideally :
    (∀ freq : ℝ, 0 < sigmoidR (quadratic_curve_fitR freq) ∧
      sigmoidR (quadratic_curve_fitR freq) < 1) ∧
    (∀ (t : ℤ → ℤ → Double) (d : ℤ → ℤ → ℤ → ℤ → Double)
      (freq_entries : List (List Char × Double)),
      build_remaining_candidates t d freq_entries =
        freq_entries.filterMap (fun x =>
          if (sigmoid t d (quadratic_curve_fit x.2)).gt (.num 0 0) then
            some (x.1, sigmoid t d (quadratic_curve_fit x.2)) else none)) ∧
    (∀ (t : ℤ → ℤ → Double) (d : ℤ → ℤ → ℤ → ℤ → Double),
      sigmoid t d (quadratic_curve_fit FREQ0003) = Double.num 0 0) := by
  refine ⟨fun freq => sigmoidR_pos_lt_one _, fun t d freq_entries => ?_, ?_⟩
  · unfold build_remaining_candidates
    rw [build_remaining_foldl]
    simp
  · intro t d
    have hfit : quadratic_curve_fit FREQ0003 =
        Double.num (-3864432652538629) (-36) := by decide
    rw [hfit]
    rfl

/-- Claim C10: for 5-letter lowercase words the score is always in
`[0, 242]` (it is a `ℕ`, so the lower bound is inherent), hence every bucket
index of `score_against_dictionary` is within its `MAX_SCORE`-element array
and the accumulation never panics (`isSome`). -/
theorem score_in_range_and_buckets_in_bounds {α : Type} (guess : List Char)
    (dict : List (List Char × α)) (hg : wordOk guess)
    (hd : ∀ e ∈ dict, wordOk e.1) :
    (∀ candidate : List Char, wordOk candidate →
      score_guess guess candidate ≤ 242) ∧
    (score_against_dictionary guess dict).isSome = true := by
  refine ⟨fun candidate hc => score_guess_le guess candidate hg hc, ?_⟩
  unfold score_against_dictionary
  apply sad_foldl_isSome
  intro e he
  rw [List.length_replicate]
  have := score_guess_le guess e.1 hg (hd e he)
  unfold MAX_SCORE
  omega

/-- Witness for C10 at the concrete guess `"aaemp"` against the one-word
dictionary `["maaph"]`. -/
theorem score_in_range_and_buckets_in_bounds_witness :
    wordOk ['a', 'a', 'e', 'm', 'p'] ∧
    (∀ e ∈ [(['m', 'a', 'a', 'p', 'h'], (0 : ℤ))], wordOk e.1) ∧
    ((∀ candidate : List Char, wordOk candidate →
        score_guess ['a', 'a', 'e', 'm', 'p'] candidate ≤ 242) ∧
      (score_against_dictionary ['a', 'a', 'e', 'm', 'p']
        [(['m', 'a', 'a', 'p', 'h'], (0 : ℤ))]).isSome = true) :=
  ⟨by decide, by decide,
    score_in_range_and_buckets_in_bounds _ _ (by decide) (by decide)⟩

/-- Claim C6: whenever `compute_best_guesses` returns (no panic), the ranked
sequence is sorted non-decreasing by entropy (in the IEEE order), contains
only entries with entropy strictly greater than `0.0`, and is a permutation
of the positive-entropy entries computed over every word of the full
dictionary (not only the remaining candidates). -/
theorem rank_guesses_sorted_positive_complete (f : ℚ → ℚ)
    (freq_entries remaining ret : List (List Char × F64))
    (h : compute_best_guesses f freq_entries remaining = some ret) :
    ret.Pairwise (fun a b => F64.le a.2 b.2 = true) ∧
    (∀ x ∈ ret, F64.gt x.2 (F64.num 0) = true) ∧
    ret.Perm (positiveGuesses f freq_entries remaining) := by
  unfold compute_best_guesses at h
  rcases Option.map_eq_some'.mp h with ⟨l0, hl0, hret⟩
  have hchar : l0 = positiveGuesses f freq_entries remaining := by
    simpa using best_guesses_foldl_some f remaining freq_entries [] l0 hl0
  subst hchar
  subst hret
  have hperm :
      (List.insertionSort powLE
        (positiveGuesses f freq_entries remaining)).Perm
        (positiveGuesses f freq_entries remaining) :=
    List.perm_insertionSort powLE _
  have hpos : ∀ x ∈ List.insertionSort powLE
      (positiveGuesses f freq_entries remaining),
      F64.gt x.2 (F64.num 0) = true := by
    intro x hx
    exact mem_positiveGuesses_gt f freq_entries remaining x (hperm.mem_iff.mp hx)
  refine ⟨?_, hpos, hperm⟩
  have hsort : List.Sorted powLE
      (List.insertionSort powLE (positiveGuesses f freq_entries remaining)) :=
    List.sorted_insertionSort powLE _
  exact hsort.imp_of_mem
    (fun {a b} ha hb hr =>
      F64.le_of_leT (F64.gt_ne_nan (hpos a ha)) (F64.gt_ne_nan (hpos b hb)) hr)

/-- Witness for C6 at a concrete one-word dictionary and the empty candidate
set (where each guess power is `NaN` and the ranked sequence is empty). -/
theorem rank_guesses_sorted_positive_complete_witness :
    compute_best_guesses (fun _ => -1) [(['a', 'a', 'a', 'a', 'a'], F64.num 1)]
      ([] : List (List Char × F64)) = some [] ∧
    (([] : List (List Char × F64)).Pairwise
        (fun a b => F64.le a.2 b.2 = true) ∧
      (∀ x ∈ ([] : List (List Char × F64)),
        F64.gt x.2 (F64.num 0) = true) ∧
      ([] : List (List Char × F64)).Perm
        (positiveGuesses (fun _ => -1)
          [(['a', 'a', 'a', 'a', 'a'], F64.num 1)] [])) := by
  have h : compute_best_guesses (fun _ => -1)
      [(['a', 'a', 'a', 'a', 'a'], F64.num 1)]
      ([] : List (List Char × F64)) = some [] := by
    unfold compute_best_guesses
    rw [best_guesses_foldl_empty]
    rfl
  exact ⟨h, rank_guesses_sorted_positive_complete _ _ _ _ h⟩

/-- The entropy fold subtracts the information terms from the initial
accumulator. -/
theorem entropyR_foldl_eq {α : Type} (freqs : List (List Char × α)) :
    ∀ (scores : List ℤ) (a : ℝ),
      scores.foldl (entropyStepR freqs) a =
        a - (scores.map (informationR freqs)).sum := by
  intro scores
  induction scores with
  | nil => intro a; simp
  | cons s rest ih =>
    intro a
    rw [List.foldl_cons]
    have hstep : entropyStepR freqs a s = a - informationR freqs s := rfl
    rw [hstep, ih, List.map_cons, List.sum_cons]
    ring

/-- The real-valued entropy is the negated sum of the information terms. -/
theorem scores_to_entropyR_eq {α : Type} (scores : List ℤ)
    (freqs : List (List Char × α)) :
    scores_to_entropyR scores freqs =
      -((scores.map (informationR freqs)).sum) := by
  unfold scores_to_entropyR
  rw [entropyR_foldl_eq]
  ring

/-- Each bucket's information term is nonpositive when the count lies in
`[0, |frequencies|]` (the probability is then in `[0, 1]`). -/
theorem informationR_nonpos {α : Type} (freqs : List (List Char × α))
    (s : ℤ) (hs : 0 ≤ s) (hsn : (s : ℝ) ≤ (freqs.length : ℝ)) :
    informationR freqs s ≤ 0 := by
  unfold informationR
  by_cases hp : (s : ℝ) / (freqs.length : ℝ) = 0
  · simp [hp]
  · rw [if_neg hp]
    have hn : (0 : ℝ) < (freqs.length : ℝ) := by
      rcases Nat.eq_zero_or_pos freqs.length with h0 | h0
      · exact absurd (by simp [h0]) hp
      · exact_mod_cast h0
    have hp0 : 0 ≤ (s : ℝ) / (freqs.length : ℝ) :=
      div_nonneg (by exact_mod_cast hs) (le_of_lt hn)
    have hp1 : (s : ℝ) / (freqs.length : ℝ) ≤ 1 := by
      rw [div_le_one hn]
      exact hsn
    exact mul_nonpos_of_nonneg_of_nonpos hp0
      (Real.logb_nonpos (by norm_num) hp0 hp1)

/-- Counting distributes over a cons: the head word contributes exactly to
its own bucket. -/
theorem scoreCount_cons {α : Type} (guess : List Char) (w : List Char × α)
    (rest : List (List Char × α)) (j : ℕ) :
    scoreCount guess (w :: rest) j =
      scoreCount guess rest j +
        (if score_guess guess w.1 = j then 1 else 0) := by
  by_cases h : score_guess guess w.1 = j
  · simp [scoreCount, List.filter_cons, h]
  · simp [scoreCount, List.filter_cons, h]

/-- A bucket never counts more words than the whole map. -/
theorem scoreCount_le {α : Type} (guess : List Char)
    (dict : List (List Char × α)) (j : ℕ) :
    scoreCount guess dict j ≤ dict.length :=
  List.length_filter_le _ _

/-- A poisoned (`none`) accumulator stays poisoned in
`score_against_dictionary`. -/
theorem sad_fold_none {α : Type} (guess : List Char) :
    ∀ dict : List (List Char × α),
      dict.foldl
        (fun a w => a.bind fun ret => bump ret (score_guess guess w.1))
        none = none := by
  intro dict
  induction dict with
  | nil => rfl
  | cons w rest ih =>
    rw [List.foldl_cons]
    simpa using ih

/-- Counting invariant of the `score_against_dictionary` fold: each bucket of
a successful result holds its initial value plus the number of words scoring
into it. -/
theorem sad_fold_counts {α : Type} (guess : List Char) :
    ∀ (dict : List (List Char × α)) (acc res : List ℤ),
      dict.foldl
        (fun a w => a.bind fun ret => bump ret (score_guess guess w.1))
        (some acc) = some res →
      res.length = acc.length ∧
      ∀ j, j < acc.length →
        res.getD j 0 = acc.getD j 0 + (scoreCount guess dict j : ℤ) := by
  intro dict
  induction dict with
  | nil =>
    intro acc res h
    injection h with h
    subst h
    exact ⟨rfl, fun j _ => by simp [scoreCount]⟩
  | cons w rest ih =>
    intro acc res h
    rw [List.foldl_cons] at h
    obtain ⟨sc, hsc⟩ : ∃ sc, score_guess guess w.1 = sc := ⟨_, rfl⟩
    rw [hsc] at h
    have hcc : ∀ j, scoreCount guess (w :: rest) j =
        scoreCount guess rest j + (if sc = j then 1 else 0) := by
      intro j
      rw [scoreCount_cons, hsc]
    by_cases hs : sc < acc.length
    · have hb : ((some acc).bind fun ret => bump ret sc) =
          some (acc.set sc (acc.getD sc 0 + 1)) := by
        unfold bump
        rw [Option.some_bind, if_pos hs]
      rw [hb] at h
      obtain ⟨hlen, hcnt⟩ := ih _ _ h
      rw [List.length_set] at hlen
      refine ⟨hlen, fun j hj => ?_⟩
      have hc2 := hcnt j (by rw [List.length_set]; exact hj)
      rw [hc2, hcc j]
      by_cases hje : j = sc
      · subst hje
        rw [getD_set_self _ _ _ hs, if_pos rfl]
        push_cast
        ring
      · rw [getD_set_ne _ _ _ (Ne.symm hje), if_neg (fun he => hje he.symm)]
        push_cast
        ring
    · have hb : ((some acc).bind fun ret => bump ret sc) = none := by
        unfold bump
        rw [Option.some_bind, if_neg hs]
      rw [hb, sad_fold_none] at h
      exact absurd h (by simp)

/-- A successful `score_against_dictionary` result is exactly the per-bucket
word counts over the `MAX_SCORE` buckets. -/
theorem sad_res_counts {α : Type} (guess : List Char)
    (dict : List (List Char × α)) (res : List ℤ)
    (h : score_against_dictionary guess dict = some res) :
    res = (List.range MAX_SCORE).map
      (fun j => (scoreCount guess dict j : ℤ)) := by
  unfold score_against_dictionary at h
  obtain ⟨hlen, hcnt⟩ :=
    sad_fold_counts guess dict (List.replicate MAX_SCORE 0) res h
  rw [List.length_replicate] at hlen
  apply List.ext_getElem
  · rw [hlen, List.length_map, List.length_range]
  · intro i h1 h2
    have hi : i < MAX_SCORE := by rw [← hlen]; exact h1
    have hc := hcnt i (by rw [List.length_replicate]; exact hi)
    rw [List.getD_eq_getElem res 0 h1] at hc
    have hrep : (List.replicate MAX_SCORE (0 : ℤ)).getD i 0 = 0 := by
      rw [List.getD_eq_getElem _ 0 (by rw [List.length_replicate]; exact hi),
        List.getElem_replicate]
    rw [hrep, zero_add] at hc
    rw [hc, List.getElem_map, List.getElem_range]

/-- A list sum over `List.range` equals the `Finset.range` sum. -/
theorem list_range_map_sum (φ : ℕ → ℝ) :
    ∀ N : ℕ, ((List.range N).map φ).sum = ∑ j ∈ Finset.range N, φ j := by
  intro N
  induction N with
  | zero => simp
  | succ n ih =>
    rw [List.range_succ, List.map_append, List.sum_append,
      Finset.sum_range_succ, ih]
    simp

/-- The buckets partition the candidate map: summing the counts over all
buckets that can occur recovers the number of candidates. -/
theorem sum_scoreCount {α : Type} (guess : List Char) :
    ∀ (dict : List (List Char × α)) (N : ℕ),
      (∀ e ∈ dict, score_guess guess e.1 < N) →
      ∑ j ∈ Finset.range N, scoreCount guess dict j = dict.length := by
  intro dict
  induction dict with
  | nil => intro N _; simp [scoreCount]
  | cons w rest ih =>
    intro N hN
    have hrest := ih N (fun e he => hN e (List.mem_cons_of_mem _ he))
    rw [Finset.sum_congr rfl (fun j _ => scoreCount_cons guess w rest j),
      Finset.sum_add_distrib, hrest, Finset.sum_ite_eq,
      if_pos (Finset.mem_range.mpr (hN w (List.mem_cons_self _ _)))]
    simp

/-- Gibbs' inequality specialised to a uniform reference distribution: a
probability vector's `-Σ w log w` over its support is at most the log of the
support size.  Proved from `log x ≤ x - 1`. -/
theorem neg_sum_w_log_le (N : ℕ) (w : ℕ → ℝ)
    (hw : ∀ j ∈ Finset.range N, 0 ≤ w j)
    (hsum : ∑ j ∈ Finset.range N, w j = 1) :
    ∑ j ∈ (Finset.range N).filter (fun j => w j ≠ 0),
        (-(w j * Real.log (w j))) ≤
      Real.log (((Finset.range N).filter (fun j => w j ≠ 0)).card) := by
  set S := (Finset.range N).filter (fun j => w j ≠ 0) with hS
  have hSsum : ∑ j ∈ S, w j = 1 := by
    rw [hS, Finset.sum_filter_ne_zero]
    exact hsum
  have hSne : S.Nonempty := by
    by_contra hne
    rw [Finset.not_nonempty_iff_eq_empty] at hne
    rw [hne, Finset.sum_empty] at hSsum
    norm_num at hSsum
  have hkpos : (0 : ℝ) < (S.card : ℝ) := by
    exact_mod_cast Finset.card_pos.mpr hSne
  have hwpos : ∀ j ∈ S, 0 < w j := by
    intro j hj
    rcases Finset.mem_filter.mp hj with ⟨hjr, hj0⟩
    exact lt_of_le_of_ne (hw j hjr) (Ne.symm hj0)
  have hterm : ∀ j ∈ S, -(w j * Real.log (w j)) ≤
      (S.card : ℝ)⁻¹ - w j + w j * Real.log (S.card : ℝ) := by
    intro j hj
    have hwj := hwpos j hj
    have hkw : (0 : ℝ) < (S.card : ℝ) * w j := mul_pos hkpos hwj
    have h1 : Real.log (((S.card : ℝ) * w j)⁻¹) ≤ ((S.card : ℝ) * w j)⁻¹ - 1 :=
      Real.log_le_sub_one_of_pos (inv_pos.mpr hkw)
    rw [Real.log_inv, Real.log_mul (ne_of_gt hkpos) (ne_of_gt hwj)] at h1
    have h2 : -Real.log (w j) ≤
        ((S.card : ℝ) * w j)⁻¹ - 1 + Real.log (S.card : ℝ) := by linarith
    have h3 := mul_le_mul_of_nonneg_left h2 (le_of_lt hwj)
    have h4 : w j * (((S.card : ℝ) * w j)⁻¹ - 1 + Real.log (S.card : ℝ)) =
        (S.card : ℝ)⁻¹ - w j + w j * Real.log (S.card : ℝ) := by
      field_simp
      ring
    have h5 : w j * -Real.log (w j) = -(w j * Real.log (w j)) := by ring
    rw [h4, h5] at h3
    exact h3
  have hsum_le := Finset.sum_le_sum hterm
  have hrhs : ∑ j ∈ S, ((S.card : ℝ)⁻¹ - w j + w j * Real.log (S.card : ℝ)) =
      Real.log (S.card : ℝ) := by
    rw [Finset.sum_add_distrib, Finset.sum_sub_distrib, Finset.sum_const,
      ← Finset.sum_mul, hSsum, nsmul_eq_mul, one_mul,
      mul_inv_cancel₀ (ne_of_gt hkpos)]
    ring
  rw [hrhs] at hsum_le
  exact hsum_le

/-- Claim C8: for any guess and non-empty candidate set of 5-letter lowercase
words, the (real-idealised) entropy of the guess's score distribution
satisfies `0 ≤ entropy ≤ log2 243`, and it is exactly 0 when the guess scores
identically against every remaining candidate. -/
theorem entropy_bounds {α : Type} (guess : List Char)
    (cands : List (List Char × α)) (res : List ℤ)
    (hg : wordOk guess) (hd : ∀ e ∈ cands, wordOk e.1) (hne : cands ≠ [])
    (hres : score_against_dictionary guess cands = some res) :
    (0 ≤ scores_to_entropyR res cands ∧
      scores_to_entropyR res cands ≤ Real.logb 2 243) ∧
    ((∃ s0 : ℕ, ∀ e ∈ cands, score_guess guess e.1 = s0) →
      scores_to_entropyR res cands = 0) := by
  have hn : 0 < cands.length := List.length_pos.mpr hne
  have hnR : (0 : ℝ) < (cands.length : ℝ) := by exact_mod_cast hn
  have hlt : ∀ e ∈ cands, score_guess guess e.1 < MAX_SCORE := by
    intro e he
    have := score_guess_le guess e.1 hg (hd e he)
    unfold MAX_SCORE
    omega
  have hrepr : scores_to_entropyR res cands =
      -(∑ j ∈ Finset.range MAX_SCORE,
        informationR cands ((scoreCount guess cands j : ℤ))) := by
    rw [scores_to_entropyR_eq, sad_res_counts guess cands res hres,
      List.map_map, list_range_map_sum _ MAX_SCORE]
    rfl
  set W : ℕ → ℝ :=
    fun j => (scoreCount guess cands j : ℝ) / (cands.length : ℝ) with hWdef
  have hinfo : ∀ j, informationR cands ((scoreCount guess cands j : ℤ)) =
      if W j = 0 then 0 else W j * Real.logb 2 (W j) := by
    intro j
    unfold informationR
    rw [hWdef]
    push_cast
    rfl
  have hW0 : ∀ j ∈ Finset.range MAX_SCORE, 0 ≤ W j := by
    intro j _
    rw [hWdef]
    positivity
  have hsumc : ∑ j ∈ Finset.range MAX_SCORE, scoreCount guess cands j =
      cands.length := sum_scoreCount guess cands MAX_SCORE hlt
  have hWsum : ∑ j ∈ Finset.range MAX_SCORE, W j = 1 := by
    rw [hWdef, ← Finset.sum_div, ← Nat.cast_sum, hsumc,
      div_self (ne_of_gt hnR)]
  have hlow : 0 ≤ scores_to_entropyR res cands := by
    rw [hrepr, neg_nonneg]
    apply Finset.sum_nonpos
    intro j _
    apply informationR_nonpos
    · exact_mod_cast Nat.zero_le _
    · push_cast
      exact_mod_cast scoreCount_le guess cands j
  have hinfo2 : ∀ j, -(informationR cands ((scoreCount guess cands j : ℤ))) =
      (if W j ≠ 0 then -(W j * Real.log (W j)) else 0) / Real.log 2 := by
    intro j
    rw [hinfo j]
    by_cases h0 : W j = 0
    · rw [if_pos h0, if_neg (fun h => h h0)]
      simp
    · rw [if_neg h0, if_pos h0, Real.logb]
      ring
  have hup : scores_to_entropyR res cands ≤ Real.logb 2 243 := by
    rw [hrepr, ← Finset.sum_neg_distrib,
      Finset.sum_congr rfl (fun j _ => hinfo2 j), ← Finset.sum_div]
    have hgibbs := neg_sum_w_log_le MAX_SCORE W hW0 hWsum
    rw [← Finset.sum_filter (fun j => W j ≠ 0)
      (fun j => -(W j * Real.log (W j)))]
    have hcard : (((Finset.range MAX_SCORE).filter
        (fun j => W j ≠ 0)).card : ℝ) ≤ 243 := by
      have h1 := Finset.card_filter_le (Finset.range MAX_SCORE)
        (fun j => W j ≠ 0)
      rw [Finset.card_range] at h1
      exact_mod_cast h1
    have hcardpos : (0 : ℝ) < (((Finset.range MAX_SCORE).filter
        (fun j => W j ≠ 0)).card : ℝ) := by
      have hSsum : ∑ j ∈ (Finset.range MAX_SCORE).filter
          (fun j => W j ≠ 0), W j = 1 := by
        rw [Finset.sum_filter_ne_zero]
        exact hWsum
      have hSne : ((Finset.range MAX_SCORE).filter
          (fun j => W j ≠ 0)).Nonempty := by
        by_contra hcne
        rw [Finset.not_nonempty_iff_eq_empty] at hcne
        rw [hcne, Finset.sum_empty] at hSsum
        norm_num at hSsum
      exact_mod_cast Finset.card_pos.mpr hSne
    have hlog : Real.log (((Finset.range MAX_SCORE).filter
        (fun j => W j ≠ 0)).card : ℝ) ≤ Real.log 243 :=
      Real.log_le_log hcardpos hcard
    have h2pos : (0 : ℝ) < Real.log 2 := Real.log_pos (by norm_num)
    calc (∑ j ∈ (Finset.range MAX_SCORE).filter (fun j => W j ≠ 0),
            -(W j * Real.log (W j))) / Real.log 2
        ≤ Real.log (((Finset.range MAX_SCORE).filter
            (fun j => W j ≠ 0)).card : ℝ) / Real.log 2 :=
          (div_le_div_iff_of_pos_right h2pos).mpr hgibbs
      _ ≤ Real.log 243 / Real.log 2 := (div_le_div_iff_of_pos_right h2pos).mpr hlog
      _ = Real.logb 2 243 := Real.log_div_log
  refine ⟨⟨hlow, hup⟩, ?_⟩
  rintro ⟨s0, hall⟩
  rw [hrepr]
  have hzero : ∀ j ∈ Finset.range MAX_SCORE,
      informationR cands ((scoreCount guess cands j : ℤ)) = 0 := by
    intro j _
    rw [hinfo j]
    by_cases h0 : W j = 0
    · rw [if_pos h0]
    · rw [if_neg h0]
      have hcj : scoreCount guess cands j ≠ 0 := by
        intro hc0
        apply h0
        rw [hWdef]
        simp [hc0]
      have hex : ∃ e, e ∈ (cands.filter
          (fun e => score_guess guess e.1 == j)) := by
        apply List.exists_mem_of_ne_nil
        intro hnil
        apply hcj
        unfold scoreCount
        rw [hnil]
        rfl
      rcases hex with ⟨e, he⟩
      rcases List.mem_filter.mp he with ⟨hec, hej⟩
      have hj0 : j = s0 := by
        rw [beq_iff_eq] at hej
        rw [← hej, hall e hec]
      subst hj0
      have hcall : scoreCount guess cands j = cands.length := by
        unfold scoreCount
        rw [List.filter_eq_self.mpr]
        intro a ha
        rw [beq_iff_eq]
        exact hall a ha
      have hW1 : W j = 1 := by
        rw [hWdef]
        simp only []
        rw [hcall, div_self (ne_of_gt hnR)]
      rw [hW1, Real.logb_one, mul_zero]
  rw [Finset.sum_eq_zero hzero, neg_zero]

/-- Witness for C8 at the guess `"aaaaa"` against the single candidate
`"aaaaa"`: the only occupied bucket is 242 and the entropy is 0. -/
theorem entropy_bounds_witness :
    (wordOk ['a', 'a', 'a', 'a', 'a'] ∧
      (∀ e ∈ [(['a', 'a', 'a', 'a', 'a'], (0 : ℤ))], wordOk e.1) ∧
      ([(['a', 'a', 'a', 'a', 'a'], (0 : ℤ))] :
        List (List Char × ℤ)) ≠ [] ∧
      score_against_dictionary ['a', 'a', 'a', 'a', 'a']
          [(['a', 'a', 'a', 'a', 'a'], (0 : ℤ))] =
        some ((List.replicate 243 (0 : ℤ)).set 242 1)) ∧
    ((0 ≤ scores_to_entropyR ((List.replicate 243 (0 : ℤ)).set 242 1)
        [(['a', 'a', 'a', 'a', 'a'], (0 : ℤ))] ∧
      scores_to_entropyR ((List.replicate 243 (0 : ℤ)).set 242 1)
        [(['a', 'a', 'a', 'a', 'a'], (0 : ℤ))] ≤ Real.logb 2 243) ∧
    ((∃ s0 : ℕ, ∀ e ∈ [(['a', 'a', 'a', 'a', 'a'], (0 : ℤ))],
        score_guess ['a', 'a', 'a', 'a', 'a'] e.1 = s0) →
      scores_to_entropyR ((List.replicate 243 (0 : ℤ)).set 242 1)
        [(['a', 'a', 'a', 'a', 'a'], (0 : ℤ))] = 0)) :=
  ⟨⟨by decide, by decide, by decide, by decide⟩,
    entropy_bounds ['a', 'a', 'a', 'a', 'a']
      [(['a', 'a', 'a', 'a', 'a'], (0 : ℤ))]
      ((List.replicate 243 (0 : ℤ)).set 242 1)
      (by decide) (by decide) (by decide) (by decide)⟩

end WordleSolver
